import Mathlib

/-!
Verification of the SQL-dump line filter in `src/db_schema/codeCleaner.py`.

Strings are embedded as `List Char`.  Python's `str.strip` / `str.rstrip`
whitespace set is modelled by the ASCII whitespace characters
(space, tab, newline, carriage return, vertical tab, form feed), which is
what those methods strip on the ASCII text the tool processes.
-/

namespace CodeCleaner

/-- The whitespace test used by `strip`/`rstrip` (Python `str.strip()`). -/
def isSpace (c : Char) : Bool :=
  c == ' ' || c == '\t' || c == '\n' || c == '\r' || c == '\x0b' || c == '\x0c'

/-- Remove leading whitespace (Python `str.lstrip()`). -/
def lstrip : List Char → List Char
  | [] => []
  | c :: cs => if isSpace c then lstrip cs else c :: cs

/-- Remove trailing whitespace (Python `str.rstrip()`). -/
def rstrip (l : List Char) : List Char := (lstrip l.reverse).reverse

/-- Remove leading and trailing whitespace (Python `str.strip()`). -/
def strip (l : List Char) : List Char := lstrip (rstrip l)

/-- The apostrophe character, `'`. -/
def apos : Char := Char.ofNat 39

/-- The `ignore_keywords` list of `clean_sql` (codeCleaner.py lines 9-17). -/
def ignore_keywords : List (List Char) :=
  [ "OWNER TO".toList
  , "ACL".toList
  , "GRANT ALL".toList
  , "REVOKE ALL".toList
  , "SET default_table_access_method".toList
  , "SELECT pg_catalog.set_config(".toList ++ [apos] ++ "search_path".toList ++ [apos]
  , "\\restrict".toList ]

/-- `line.startswith("--")` on the embedded string. -/
def startsDashDash : List Char → Bool
  | c :: d :: _ => c == '-' && d == '-'
  | _ => false

/-- The two-character comment marker `--`. -/
def dashDash : List Char := ['-', '-']

/-- Does `l` start with `kw`?  (Bool form of `kw <+: l`.) -/
def hasPre : List Char → List Char → Bool
  | [], _ => true
  | _ :: _, [] => false
  | k :: ks, c :: cs => k == c && hasPre ks cs

/-- Does `l` contain `kw` as a contiguous substring?  (Python `kw in l`.) -/
def hasSub (kw : List Char) : List Char → Bool
  | [] => hasPre kw []
  | c :: cs => hasPre kw (c :: cs) || hasSub kw cs

/-- `line.split("--")[0]`: the part of the line before the first `--`
(the whole line when there is none). -/
def beforeDashDash : List Char → List Char
  | [] => []
  | c :: cs => if startsDashDash (c :: cs) then [] else c :: beforeDashDash cs

/-- The body of the `for line in lines` loop of `clean_sql`
(codeCleaner.py lines 20-37): `some out` when the line survives with
transformed text `out`, `none` when the loop `continue`s. -/
def processLine (line : List Char) : Option (List Char) :=
  let raw_line := strip line
  if startsDashDash raw_line || raw_line.isEmpty then
    none
  else if ignore_keywords.any fun kw => hasSub kw raw_line then
    none
  else if hasSub dashDash line then
    let line2 := rstrip (beforeDashDash line)
    if (strip line2).isEmpty then none
    else some (rstrip line2)
  else
    some (rstrip line)

/-- The `cleaned_lines` list built by the loop, in input order. -/
def cleanLines (lines : List (List Char)) : List (List Char) :=
  lines.filterMap processLine

/-- `"\n".join(cleaned_lines)` (codeCleaner.py line 40). -/
def joinLines : List (List Char) → List Char
  | [] => []
  | [o] => o
  | o :: r :: rest => o ++ '\n' :: joinLines (r :: rest)

/-- `f.readlines()`: split the file content after each newline, keeping the
newline on each line and keeping a final unterminated line when nonempty. -/
def readLines : List Char → List (List Char)
  | [] => []
  | c :: cs =>
    if c == '\n' then ['\n'] :: readLines cs
    else
      match readLines cs with
      | [] => [[c]]
      | l :: ls => (c :: l) :: ls

/-- The content written to the output file for a given list of input lines. -/
def cleanOutput (lines : List (List Char)) : List Char :=
  joinLines (cleanLines lines)

/-- The whole file transform of `clean_sql`: input file content to output
file content. -/
def cleanFile (content : List Char) : List Char :=
  cleanOutput (readLines content)

/-- `clean_sql` as an action on a file system (a partial map from paths to
file contents): reading a missing input path fails (`none`); otherwise the
output path is overwritten with the cleaned content and every other path is
untouched. -/
def clean_sql (fs : List Char → Option (List Char))
    (input_file output_file : List Char) :
    Option (List Char → Option (List Char)) :=
  match fs input_file with
  | none => none
  | some content =>
      some fun p => if p = output_file then some (cleanFile content) else fs p

/-- Is the first character defined and not whitespace? -/
def headNonSpace : List Char → Bool
  | [] => false
  | c :: _ => !isSpace c

/-- The lines of `joinLines outs` as `readLines` recovers them: every line
but the last gets its newline back. -/
def withNl : List (List Char) → List (List Char)
  | [] => []
  | [o] => [o]
  | o :: r :: rest => (o ++ ['\n']) :: withNl (r :: rest)

example : processLine "  -- this is a comment".toList = none := by decide

example : processLine "ALTER TABLE foo OWNER TO admin;".toList = none := by decide

example : processLine "INSERT INTO t VALUES (1); -- seed row".toList
    = some "INSERT INTO t VALUES (1);".toList := by decide

example : processLine "CREATE TABLE t (id int);".toList
    = some "CREATE TABLE t (id int);".toList := by decide

example : cleanFile "SELECT 1;\n\n-- c\nSELECT 2;  -- x\n".toList
    = "SELECT 1;\nSELECT 2;".toList := by decide

/-! ### Whitespace stripping lemmas -/

lemma lstrip_cons_space {c : Char} (cs : List Char) (h : isSpace c = true) :
    lstrip (c :: cs) = lstrip cs := by
  simp [lstrip, h]

lemma lstrip_cons_nospace {c : Char} (cs : List Char) (h : isSpace c = false) :
    lstrip (c :: cs) = c :: cs := by
  simp [lstrip, h]

lemma lstrip_decomp (l : List Char) :
    ∃ w, (∀ c ∈ w, isSpace c = true) ∧ l = w ++ lstrip l := by
  induction l with
  | nil => exact ⟨[], by simp, rfl⟩
  | cons c cs ih =>
    cases hc : isSpace c with
    | true =>
      obtain ⟨w, hw, hl⟩ := ih
      refine ⟨c :: w, ?_, ?_⟩
      · intro d hd
        rcases List.mem_cons.mp hd with rfl | hd
        · exact hc
        · exact hw d hd
      · rw [lstrip_cons_space cs hc, List.cons_append]
        exact congrArg (c :: ·) hl
    | false => exact ⟨[], by simp, by rw [lstrip_cons_nospace cs hc]; rfl⟩

lemma lstrip_idem (l : List Char) : lstrip (lstrip l) = lstrip l := by
  induction l with
  | nil => rfl
  | cons c cs ih =>
    cases hc : isSpace c with
    | true => rw [lstrip_cons_space cs hc]; exact ih
    | false => rw [lstrip_cons_nospace cs hc, lstrip_cons_nospace cs hc]

lemma lstrip_app (s r : List Char) :
    lstrip (s ++ r) = if lstrip s = [] then lstrip r else lstrip s ++ r := by
  induction s with
  | nil => simp [lstrip]
  | cons c cs ih =>
    cases hc : isSpace c with
    | true =>
      rw [List.cons_append, lstrip_cons_space _ hc, lstrip_cons_space cs hc]
      exact ih
    | false =>
      rw [List.cons_append, lstrip_cons_nospace _ hc, lstrip_cons_nospace cs hc]
      simp

lemma lstrip_eq_nil_iff (l : List Char) :
    lstrip l = [] ↔ ∀ c ∈ l, isSpace c = true := by
  induction l with
  | nil => simp [lstrip]
  | cons c cs ih =>
    cases hc : isSpace c with
    | true => rw [lstrip_cons_space cs hc]; simp [List.forall_mem_cons, hc, ih]
    | false => rw [lstrip_cons_nospace cs hc]; simp [List.forall_mem_cons, hc]

lemma lstrip_sfx (l : List Char) : lstrip l <:+ l := by
  obtain ⟨w, _, hl⟩ := lstrip_decomp l
  exact ⟨w, hl.symm⟩

lemma lstrip_head {l : List Char} {c : Char} {cs : List Char}
    (h : lstrip l = c :: cs) : isSpace c = false := by
  induction l with
  | nil => simp [lstrip] at h
  | cons d ds ih =>
    cases hd : isSpace d with
    | true => rw [lstrip_cons_space ds hd] at h; exact ih h
    | false =>
      rw [lstrip_cons_nospace ds hd] at h
      obtain ⟨rfl, rfl⟩ := List.cons.inj h
      exact hd

lemma lstrip_allSpace {w : List Char} (r : List Char)
    (h : ∀ c ∈ w, isSpace c = true) : lstrip (w ++ r) = lstrip r := by
  rw [lstrip_app, if_pos ((lstrip_eq_nil_iff w).mpr h)]

lemma rstrip_decomp (l : List Char) :
    ∃ w, (∀ c ∈ w, isSpace c = true) ∧ l = rstrip l ++ w := by
  obtain ⟨w, hw, hl⟩ := lstrip_decomp l.reverse
  refine ⟨w.reverse, fun c hc => hw c (List.mem_reverse.mp hc), ?_⟩
  calc l = (w ++ lstrip l.reverse).reverse := by rw [← hl, List.reverse_reverse]
    _ = rstrip l ++ w.reverse := by rw [List.reverse_append]; rfl

lemma rstrip_pre (l : List Char) : rstrip l <+: l := by
  obtain ⟨w, _, hl⟩ := rstrip_decomp l
  exact ⟨w, hl.symm⟩

lemma rstrip_idem (l : List Char) : rstrip (rstrip l) = rstrip l := by
  unfold rstrip
  rw [List.reverse_reverse, lstrip_idem]

lemma rstrip_app_space (l : List Char) {w : List Char}
    (h : ∀ c ∈ w, isSpace c = true) : rstrip (l ++ w) = rstrip l := by
  unfold rstrip
  rw [List.reverse_append, lstrip_allSpace _ (fun c hc => h c (List.mem_reverse.mp hc))]

lemma rstrip_eq_nil_iff (l : List Char) :
    rstrip l = [] ↔ ∀ c ∈ l, isSpace c = true := by
  unfold rstrip
  rw [List.reverse_eq_nil_iff, lstrip_eq_nil_iff]
  constructor <;> intro h c hc
  · exact h c (List.mem_reverse.mpr hc)
  · exact h c (List.mem_reverse.mp hc)

lemma rstrip_app_full (a b : List Char) (hb : rstrip b ≠ []) :
    rstrip (a ++ b) = a ++ rstrip b := by
  have hb' : lstrip b.reverse ≠ [] := by
    intro h
    apply hb
    unfold rstrip
    rw [h]
    rfl
  unfold rstrip
  rw [List.reverse_append, lstrip_app, if_neg hb', List.reverse_append,
    List.reverse_reverse]

lemma strip_rstrip (l : List Char) : strip (rstrip l) = strip l := by
  unfold strip
  rw [rstrip_idem]

lemma strip_eq_nil_iff (l : List Char) :
    strip l = [] ↔ ∀ c ∈ l, isSpace c = true := by
  unfold strip
  rw [lstrip_eq_nil_iff]
  obtain ⟨w, hw, hl⟩ := rstrip_decomp l
  constructor
  · intro h c hc
    rw [hl] at hc
    rcases List.mem_append.mp hc with hc | hc
    · exact h c hc
    · exact hw c hc
  · intro h c hc
    refine h c ?_
    rw [hl]
    exact List.mem_append_left _ hc

lemma strip_app_space (l : List Char) {w : List Char}
    (h : ∀ c ∈ w, isSpace c = true) : strip (l ++ w) = strip l := by
  unfold strip
  rw [rstrip_app_space _ h]

lemma strip_of_rstripped {l : List Char} (h : rstrip l = l) :
    strip l = lstrip l := by
  unfold strip
  rw [h]

/-! ### Substring containment lemmas -/

lemma sub_of_pre {a b : List Char} (h : a <+: b) : a <:+: b := by
  obtain ⟨t, ht⟩ := h
  exact ⟨[], t, by simpa using ht⟩

lemma sub_of_suf {a b : List Char} (h : a <:+ b) : a <:+: b := by
  obtain ⟨s, hs⟩ := h
  exact ⟨s, [], by simpa using hs⟩

lemma sub_trans {a b c : List Char} (h1 : a <:+: b) (h2 : b <:+: c) :
    a <:+: c := by
  obtain ⟨s, t, hb⟩ := h1
  obtain ⟨u, v, hc⟩ := h2
  exact ⟨u ++ s, t ++ v, by rw [← hc, ← hb]; simp⟩

lemma sub_rev {a b : List Char} (h : a <:+: b) :
    a.reverse <:+: b.reverse := by
  obtain ⟨s, t, hb⟩ := h
  exact ⟨t.reverse, s.reverse, by rw [← hb]; simp⟩

lemma sub_cons_elim {a : List Char} {c : Char} {b : List Char}
    (h : a <:+: c :: b) : a <+: c :: b ∨ a <:+: b := by
  obtain ⟨s, t, hb⟩ := h
  cases s with
  | nil => exact Or.inl ⟨t, by simpa using hb⟩
  | cons x s' =>
    simp only [List.cons_append] at hb
    obtain ⟨-, h2⟩ := List.cons.inj hb
    exact Or.inr ⟨s', t, h2⟩

lemma hasPre_iff (kw l : List Char) : hasPre kw l = true ↔ kw <+: l := by
  induction kw generalizing l with
  | nil => simp [hasPre]
  | cons k ks ih =>
    cases l with
    | nil => simp [hasPre]
    | cons c cs => simp [hasPre, List.cons_prefix_cons, ih]

lemma hasSub_iff (kw l : List Char) : hasSub kw l = true ↔ kw <:+: l := by
  induction l with
  | nil =>
    simp only [hasSub, hasPre_iff, List.prefix_nil]
    constructor
    · rintro rfl
      exact ⟨[], [], rfl⟩
    · rintro ⟨s, t, hst⟩
      simp only [List.append_eq_nil] at hst
      exact hst.1.2
  | cons c cs ih =>
    simp only [hasSub, Bool.or_eq_true, hasPre_iff, ih]
    constructor
    · rintro (h | h)
      · exact sub_of_pre h
      · exact sub_trans h (sub_of_suf ⟨[c], rfl⟩)
    · exact sub_cons_elim

lemma startsDD_iff (l : List Char) :
    startsDashDash l = true ↔ dashDash <+: l := by
  cases l with
  | nil => simp [startsDashDash, dashDash]
  | cons c cs =>
    cases cs with
    | nil => simp [startsDashDash, dashDash, List.cons_prefix_cons]
    | cons d ds =>
      simp only [startsDashDash, dashDash, Bool.and_eq_true, beq_iff_eq,
        List.cons_prefix_cons, List.nil_prefix, and_true]
      constructor
      · rintro ⟨rfl, rfl⟩
        exact ⟨rfl, rfl⟩
      · rintro ⟨h1, h2⟩
        exact ⟨h1.symm, h2.symm⟩

lemma sub_lstrip {k : Char} {ks l : List Char} (hk : isSpace k = false)
    (h : (k :: ks) <:+: l) : (k :: ks) <:+: lstrip l := by
  obtain ⟨s, t, hl⟩ := h
  subst hl
  rw [List.append_assoc, lstrip_app]
  split_ifs with h0
  · rw [List.cons_append, lstrip_cons_nospace _ hk]
    exact ⟨[], t, by simp⟩
  · exact ⟨lstrip s, t, by simp⟩

lemma sub_rstrip {kw l : List Char} (hk : headNonSpace kw.reverse = true)
    (h : kw <:+: l) : kw <:+: rstrip l := by
  have h1 := sub_rev h
  cases hkw : kw.reverse with
  | nil => rw [hkw] at hk; simp [headNonSpace] at hk
  | cons k ks =>
    have hks : isSpace k = false := by
      rw [hkw] at hk
      simpa [headNonSpace] using hk
    rw [hkw] at h1
    have h3 := sub_rev (sub_lstrip hks h1)
    rw [← hkw, List.reverse_reverse] at h3
    simpa [rstrip] using h3

lemma sub_strip {kw l : List Char} (h1 : headNonSpace kw = true)
    (h2 : headNonSpace kw.reverse = true) (h : kw <:+: l) :
    kw <:+: strip l := by
  have hr := sub_rstrip h2 h
  cases hkw : kw with
  | nil => rw [hkw] at h1; simp [headNonSpace] at h1
  | cons k ks =>
    have hks : isSpace k = false := by
      rw [hkw] at h1
      simpa [headNonSpace] using h1
    unfold strip
    exact sub_lstrip hks (hkw ▸ hr)

lemma strip_inf (l : List Char) : strip l <:+: l := by
  unfold strip
  exact sub_trans (sub_of_suf (lstrip_sfx _)) (sub_of_pre (rstrip_pre l))

lemma kwOK : ∀ kw ∈ ignore_keywords,
    headNonSpace kw = true ∧ headNonSpace kw.reverse = true := by decide

lemma bool_eq_false {b : Bool} (h : b = true → False) : b = false := by
  cases b with
  | false => rfl
  | true => exact absurd rfl h

/-! ### Lemmas about the part of a line before the first `--` -/

lemma bdd_pre (l : List Char) : beforeDashDash l <+: l := by
  induction l with
  | nil => exact List.nil_prefix
  | cons c cs ih =>
    unfold beforeDashDash
    split_ifs with h
    · exact List.nil_prefix
    · rw [List.cons_prefix_cons]
      exact ⟨rfl, ih⟩

lemma bdd_noSub (l : List Char) : ¬ dashDash <:+: beforeDashDash l := by
  induction l with
  | nil =>
    rintro ⟨s, t, hst⟩
    simp [dashDash, beforeDashDash, List.append_eq_nil] at hst
  | cons c cs ih =>
    unfold beforeDashDash
    split_ifs with h
    · rintro ⟨s, t, hst⟩
      simp [dashDash, List.append_eq_nil] at hst
    · intro hsub
      rcases sub_cons_elim hsub with hp | hs
      · obtain ⟨t, ht⟩ := hp
        rw [show dashDash ++ t = '-' :: ('-' :: t) from rfl] at ht
        obtain ⟨hc, htl⟩ := List.cons.inj ht
        cases cs with
        | nil =>
          rw [show beforeDashDash ([] : List Char) = [] from rfl] at htl
          exact List.noConfusion htl
        | cons d ds =>
          rcases hq : startsDashDash (d :: ds) with _ | _
          · rw [show beforeDashDash (d :: ds)
                = if startsDashDash (d :: ds) then [] else d :: beforeDashDash ds
                from rfl, hq] at htl
            simp only [Bool.false_eq_true, if_false] at htl
            obtain ⟨hd, -⟩ := List.cons.inj htl
            apply h
            rw [← hc, ← hd]
            rfl
          · rw [show beforeDashDash (d :: ds)
                = if startsDashDash (d :: ds) then [] else d :: beforeDashDash ds
                from rfl, hq] at htl
            simp only [if_true] at htl
            exact List.noConfusion htl
      · exact ih hs

lemma bdd_spec (l : List Char) (h : dashDash <:+: l) :
    ∃ t, l = beforeDashDash l ++ dashDash ++ t := by
  induction l with
  | nil =>
    exfalso
    obtain ⟨s, t, hst⟩ := h
    simp [dashDash, List.append_eq_nil] at hst
  | cons c cs ih =>
    by_cases hst : startsDashDash (c :: cs) = true
    · obtain ⟨t, ht⟩ := (startsDD_iff _).mp hst
      refine ⟨t, ?_⟩
      rw [show beforeDashDash (c :: cs)
          = if startsDashDash (c :: cs) then [] else c :: beforeDashDash cs
          from rfl, if_pos hst, List.nil_append]
      exact ht.symm
    · have hbd : beforeDashDash (c :: cs) = c :: beforeDashDash cs := by
        rw [show beforeDashDash (c :: cs)
            = if startsDashDash (c :: cs) then [] else c :: beforeDashDash cs
            from rfl, if_neg hst]
      rcases sub_cons_elim h with hp | hs
      · exact absurd ((startsDD_iff _).mpr hp) hst
      · obtain ⟨t, ht⟩ := ih hs
        refine ⟨t, ?_⟩
        rw [hbd]
        simp only [List.cons_append]
        exact congrArg (c :: ·) ht

/-! ### The shape of a surviving line -/

lemma processLine_some {line out : List Char} (h : processLine line = some out) :
    (startsDashDash (strip line) = false ∧ strip line ≠ []) ∧
    (∀ kw ∈ ignore_keywords, ¬ kw <:+: strip line) ∧
    out <+: line ∧ rstrip out = out ∧ strip out ≠ [] ∧ ¬ dashDash <:+: out := by
  cases h1 : (startsDashDash (strip line) || (strip line).isEmpty) with
  | true => simp [processLine, h1] at h
  | false =>
    have hA : startsDashDash (strip line) = false ∧ (strip line).isEmpty = false := by
      simpa [Bool.or_eq_false_iff] using h1
    have hne : strip line ≠ [] := by
      intro hnil
      rw [hnil] at h1
      simp at h1
    cases h2 : ignore_keywords.any (fun kw => hasSub kw (strip line)) with
    | true => simp [processLine, h1, h2] at h
    | false =>
      have hkw : ∀ kw ∈ ignore_keywords, ¬ kw <:+: strip line := by
        intro kw hm hsub
        have ha : ignore_keywords.any (fun kw => hasSub kw (strip line)) = true :=
          List.any_eq_true.mpr ⟨kw, hm, (hasSub_iff _ _).mpr hsub⟩
        rw [h2] at ha
        exact Bool.noConfusion ha
      cases h3 : hasSub dashDash line with
      | false =>
        have hout : out = rstrip line := by
          simp [processLine, h1, h2, h3] at h
          exact h.symm
        subst hout
        refine ⟨⟨hA.1, hne⟩, hkw, rstrip_pre line, rstrip_idem line, ?_, ?_⟩
        · rw [strip_rstrip]
          exact hne
        · intro hdd
          have hl : dashDash <:+: line := sub_trans hdd (sub_of_pre (rstrip_pre line))
          have hb := (hasSub_iff _ _).mpr hl
          rw [h3] at hb
          exact Bool.noConfusion hb
      | true =>
        cases h4 : (strip (rstrip (beforeDashDash line))).isEmpty with
        | true => simp [processLine, h1, h2, h3, h4] at h
        | false =>
          have hout : out = rstrip (beforeDashDash line) := by
            have h5 : out = rstrip (rstrip (beforeDashDash line)) := by
              simp [processLine, h1, h2, h3, h4] at h
              exact h.symm
            rw [rstrip_idem] at h5
            exact h5
          subst hout
          refine ⟨⟨hA.1, hne⟩, hkw,
            (rstrip_pre _).trans (bdd_pre line), rstrip_idem _, ?_, ?_⟩
          · intro hnil
            rw [hnil] at h4
            simp at h4
          · intro hdd
            exact bdd_noSub line
              (sub_trans hdd (sub_of_pre (rstrip_pre (beforeDashDash line))))

lemma processLine_kwFree {line out : List Char} (h : processLine line = some out) :
    ∀ kw ∈ ignore_keywords, ¬ kw <:+: out := by
  intro kw hm hsub
  obtain ⟨-, hkw, hpre, -, -, -⟩ := processLine_some h
  obtain ⟨g1, g2⟩ := kwOK kw hm
  exact hkw kw hm (sub_strip g1 g2 (sub_trans hsub (sub_of_pre hpre)))

/-- A line satisfying the output invariant passes the filter unchanged,
with or without a trailing newline. -/
lemma processLine_pass {o : List Char} (ho : rstrip o = o) (hne : strip o ≠ [])
    (hdd : ¬ dashDash <:+: o) (hkw : ∀ kw ∈ ignore_keywords, ¬ kw <:+: o) :
    processLine o = some o ∧ processLine (o ++ ['\n']) = some o := by
  have hnl : ∀ c ∈ ['\n'], isSpace c = true := by decide
  have hsnl : strip (o ++ ['\n']) = strip o := strip_app_space o hnl
  have hstart : startsDashDash (strip o) = false := by
    apply bool_eq_false
    intro hq
    exact hdd (sub_trans (sub_of_pre ((startsDD_iff _).mp hq)) (strip_inf o))
  have hie : (strip o).isEmpty = false := by
    cases hq : strip o with
    | nil => exact absurd hq hne
    | cons c cs => rfl
  have hg1 : (startsDashDash (strip o) || (strip o).isEmpty) = false := by
    rw [hstart, hie]
    rfl
  have hg1' : (startsDashDash (strip (o ++ ['\n']))
      || (strip (o ++ ['\n'])).isEmpty) = false := by
    rw [hsnl, hstart, hie]
    rfl
  have hg2 : ignore_keywords.any (fun kw => hasSub kw (strip o)) = false := by
    apply bool_eq_false
    intro hq
    obtain ⟨kw, hm, hs⟩ := List.any_eq_true.mp hq
    exact hkw kw hm (sub_trans ((hasSub_iff _ _).mp hs) (strip_inf o))
  have hg2' : ignore_keywords.any (fun kw => hasSub kw (strip (o ++ ['\n']))) = false := by
    rw [hsnl]
    exact hg2
  have hrev : dashDash.reverse = dashDash := by decide
  have hg3 : hasSub dashDash o = false :=
    bool_eq_false fun hq => hdd ((hasSub_iff _ _).mp hq)
  have hg3' : hasSub dashDash (o ++ ['\n']) = false := by
    apply bool_eq_false
    intro hq
    have h2 := sub_rev ((hasSub_iff _ _).mp hq)
    rw [hrev] at h2
    have hor : (o ++ ['\n']).reverse = '\n' :: o.reverse := by simp
    rw [hor] at h2
    rcases sub_cons_elim h2 with hp | hs
    · obtain ⟨t, ht⟩ := hp
      rw [show dashDash ++ t = '-' :: ('-' :: t) from rfl] at ht
      exact absurd (List.cons.inj ht).1 (by decide)
    · have h3 := sub_rev hs
      rw [hrev, List.reverse_reverse] at h3
      exact hdd h3
  refine ⟨?_, ?_⟩
  · simp [processLine, hg1, hg2, hg3, ho]
  · simp [processLine, hg1', hg2', hg3', rstrip_app_space o hnl, ho]

/-! ### Reading lines and joining them back -/

lemma pre_concat {a b : List Char} {x : Char} (h : a <+: b ++ [x]) :
    a <+: b ∨ a = b ++ [x] := by
  obtain ⟨t, ht⟩ := h
  rcases List.eq_nil_or_concat t with rfl | ⟨t', y, rfl⟩
  · right
    simpa using ht
  · left
    rw [List.concat_eq_append, ← List.append_assoc] at ht
    have hd := congrArg List.dropLast ht
    rw [List.dropLast_concat, List.dropLast_concat] at hd
    exact ⟨t', hd⟩

lemma readLines_shape (content : List Char) :
    ∀ l ∈ readLines content, ∃ m, '\n' ∉ m ∧ (l = m ∨ l = m ++ ['\n']) := by
  induction content with
  | nil =>
    intro l hl
    simp [readLines] at hl
  | cons c cs ih =>
    intro l hl
    unfold readLines at hl
    by_cases hc : (c == '\n') = true
    · rw [if_pos hc] at hl
      rcases List.mem_cons.mp hl with rfl | hl
      · exact ⟨[], by simp, Or.inr (by simp)⟩
      · exact ih l hl
    · rw [if_neg hc] at hl
      have hcn : c ≠ '\n' := by simpa using hc
      cases hrl : readLines cs with
      | nil =>
        rw [hrl] at hl
        simp at hl
        subst hl
        refine ⟨[c], ?_, Or.inl rfl⟩
        intro hmem
        rcases List.mem_cons.mp hmem with h | h
        · exact hcn h.symm
        · exact absurd h (List.not_mem_nil '\n')
      | cons l0 ls =>
        rw [hrl] at hl
        rcases List.mem_cons.mp hl with rfl | hl
        · obtain ⟨m, hm, hml⟩ := ih l0 (by rw [hrl]; exact List.mem_cons_self _ _)
          refine ⟨c :: m, ?_, ?_⟩
          · intro hmem
            rcases List.mem_cons.mp hmem with h | h
            · exact hcn h.symm
            · exact hm h
          · rcases hml with rfl | rfl
            · exact Or.inl rfl
            · exact Or.inr (by simp)
        · exact ih l (by rw [hrl]; exact List.mem_cons_of_mem _ hl)

lemma readLines_noNl (m : List Char) (hm : '\n' ∉ m) (hne : m ≠ []) :
    readLines m = [m] := by
  induction m with
  | nil => exact absurd rfl hne
  | cons c cs ih =>
    have hc : ¬ (c == '\n') = true := by
      simp only [beq_iff_eq]
      intro h
      subst h
      exact hm (List.mem_cons_self _ _)
    unfold readLines
    rw [if_neg hc]
    cases cs with
    | nil => rfl
    | cons d ds =>
      rw [ih (fun h => hm (List.mem_cons_of_mem _ h)) (by simp)]

lemma readLines_app (m r : List Char) (hm : '\n' ∉ m) :
    readLines (m ++ '\n' :: r) = (m ++ ['\n']) :: readLines r := by
  induction m with
  | nil =>
    simp only [List.nil_append]
    conv_lhs => unfold readLines
    rw [if_pos (by decide : ('\n' == '\n') = true)]
  | cons c cs ih =>
    have hc : ¬ (c == '\n') = true := by
      simp only [beq_iff_eq]
      intro h
      subst h
      exact hm (List.mem_cons_self _ _)
    rw [List.cons_append]
    conv_lhs => unfold readLines
    rw [if_neg hc, ih (fun h => hm (List.mem_cons_of_mem _ h))]
    rfl

lemma joinLines_ne_nil {outs : List (List Char)} (h : ∀ o ∈ outs, o ≠ [])
    (hne : outs ≠ []) : joinLines outs ≠ [] := by
  cases outs with
  | nil => exact absurd rfl hne
  | cons o rest =>
    cases rest with
    | nil => exact h o (List.mem_cons_self _ _)
    | cons r rest2 =>
      rw [show joinLines (o :: r :: rest2) = o ++ '\n' :: joinLines (r :: rest2)
        from rfl]
      simp

lemma readLines_join (outs : List (List Char))
    (h : ∀ o ∈ outs, o ≠ [] ∧ '\n' ∉ o) :
    readLines (joinLines outs) = withNl outs := by
  induction outs with
  | nil => rfl
  | cons o rest ih =>
    cases rest with
    | nil =>
      have ho := h o (List.mem_cons_self _ _)
      rw [show joinLines [o] = o from rfl, readLines_noNl o ho.2 ho.1]
      rfl
    | cons r rest2 =>
      rw [show joinLines (o :: r :: rest2) = o ++ '\n' :: joinLines (r :: rest2)
        from rfl]
      rw [readLines_app _ _ (h o (List.mem_cons_self _ _)).2]
      rw [ih (fun o' ho' => h o' (List.mem_cons_of_mem _ ho'))]
      rfl

lemma cleanLines_withNl (outs : List (List Char))
    (h : ∀ o ∈ outs, processLine o = some o ∧ processLine (o ++ ['\n']) = some o) :
    cleanLines (withNl outs) = outs := by
  induction outs with
  | nil => rfl
  | cons o rest ih =>
    cases rest with
    | nil =>
      rw [show withNl [o] = [o] from rfl]
      simp [cleanLines, List.filterMap_cons, (h o (List.mem_cons_self _ _)).1]
    | cons r rest2 =>
      rw [show withNl (o :: r :: rest2) = (o ++ ['\n']) :: withNl (r :: rest2)
        from rfl]
      unfold cleanLines
      rw [List.filterMap_cons, (h o (List.mem_cons_self _ _)).2]
      have ih' := ih (fun o' ho' => h o' (List.mem_cons_of_mem _ ho'))
      unfold cleanLines at ih'
      rw [ih']

lemma out_noNl {l o : List Char} (h : processLine l = some o)
    (hm : ∃ m, '\n' ∉ m ∧ (l = m ∨ l = m ++ ['\n'])) : '\n' ∉ o := by
  obtain ⟨-, -, hpre, hr, -, -⟩ := processLine_some h
  obtain ⟨m, hmn, hml⟩ := hm
  rcases hml with rfl | rfl
  · intro hmem
    obtain ⟨t, ht⟩ := hpre
    apply hmn
    rw [← ht]
    exact List.mem_append_left _ hmem
  · intro hmem
    rcases pre_concat hpre with hom | rfl
    · obtain ⟨t, ht⟩ := hom
      apply hmn
      rw [← ht]
      exact List.mem_append_left _ hmem
    · have h1 : rstrip (m ++ ['\n']) = rstrip m :=
        rstrip_app_space m (by decide)
      rw [h1] at hr
      have h2 := congrArg List.length hr
      obtain ⟨w, -, hw⟩ := rstrip_decomp m
      have h3 := congrArg List.length hw
      simp only [List.length_append, List.length_cons, List.length_nil] at h2 h3
      omega

lemma rstrip_last {l : List Char} {c : Char}
    (h : (rstrip l).getLast? = some c) : isSpace c = false := by
  unfold rstrip at h
  rw [List.getLast?_eq_head?_reverse, List.reverse_reverse] at h
  cases hq : lstrip l.reverse with
  | nil => rw [hq] at h; exact Option.noConfusion h
  | cons d ds =>
    rw [hq] at h
    have hd : d = c := by simpa using h
    exact hd ▸ lstrip_head hq

lemma joinLines_getLast {outs : List (List Char)} (h : ∀ o ∈ outs, o ≠ [])
    (hne : outs ≠ []) : ∃ o ∈ outs, (joinLines outs).getLast? = o.getLast? := by
  induction outs with
  | nil => exact absurd rfl hne
  | cons o rest ih =>
    cases rest with
    | nil => exact ⟨o, List.mem_cons_self _ _, rfl⟩
    | cons r rest2 =>
      have hJ : joinLines (r :: rest2) ≠ [] :=
        joinLines_ne_nil (fun o' ho' => h o' (List.mem_cons_of_mem _ ho')) (by simp)
      have e1 : (joinLines (o :: r :: rest2)).getLast?
          = (joinLines (r :: rest2)).getLast? := by
        rw [show joinLines (o :: r :: rest2) = o ++ '\n' :: joinLines (r :: rest2)
          from rfl]
        rw [List.getLast?_append_of_ne_nil _ (by simp)]
        rw [show ('\n' :: joinLines (r :: rest2)) = ['\n'] ++ joinLines (r :: rest2)
          from rfl]
        rw [List.getLast?_append_of_ne_nil _ hJ]
      obtain ⟨o', hmem, he⟩ :=
        ih (fun o' ho' => h o' (List.mem_cons_of_mem _ ho')) (by simp)
      exact ⟨o', List.mem_cons_of_mem _ hmem, e1.trans he⟩

lemma joinLines_count {outs : List (List Char)} (h : ∀ o ∈ outs, '\n' ∉ o) :
    (joinLines outs).count '\n' = outs.length - 1 := by
  induction outs with
  | nil => simp [joinLines]
  | cons o rest ih =>
    cases rest with
    | nil =>
      rw [show joinLines [o] = o from rfl]
      rw [List.count_eq_zero.mpr (h o (List.mem_cons_self _ _))]
      rfl
    | cons r rest2 =>
      rw [show joinLines (o :: r :: rest2) = o ++ '\n' :: joinLines (r :: rest2)
        from rfl]
      rw [List.count_append, List.count_cons]
      rw [List.count_eq_zero.mpr (h o (List.mem_cons_self _ _))]
      rw [ih (fun o' ho' => h o' (List.mem_cons_of_mem _ ho'))]
      simp only [List.length_cons, beq_self_eq_true, if_true]
      omega

/-! ### The claims -/

/-- C1: a line whose trimmed form contains one of the seven ignore patterns as
a substring never appears in the output of `clean_sql`, even when the match
lies inside what looks like a string literal (the test is purely textual). -/
theorem spec_C1 (lines : List (List Char)) (l kw : List Char)
    (hkw : kw ∈ ignore_keywords) (h : kw <:+: strip l) :
    l ∉ cleanLines lines := by
  intro hmem
  obtain ⟨l', -, hpl⟩ := List.mem_filterMap.mp hmem
  exact processLine_kwFree hpl kw hkw (sub_trans h (strip_inf l))

/-- Witness for C1 at a concrete input where the pattern `ACL` sits inside a
quoted string literal. -/
theorem spec_C1_w :
    ("INSERT INTO t VALUES (".toList ++ [apos] ++ "an ACL string".toList
        ++ [apos] ++ ");".toList)
      ∉ cleanLines [("INSERT INTO t VALUES (".toList ++ [apos]
        ++ "an ACL string".toList ++ [apos] ++ ");".toList)] :=
  spec_C1 _ _ "ACL".toList (by decide) (by decide)

/-- C2: for a kept line containing `--`, the output line is the input
truncated at the first `--` with trailing whitespace removed; if that
truncation is empty or whitespace-only, the line is absent from the output. -/
theorem spec_C2 (l : List Char)
    (h1 : startsDashDash (strip l) = false) (h2 : strip l ≠ [])
    (h3 : ∀ kw ∈ ignore_keywords, ¬ kw <:+: strip l)
    (h4 : dashDash <:+: l) :
    (strip (beforeDashDash l) ≠ [] →
      processLine l = some (rstrip (beforeDashDash l))) ∧
    (strip (beforeDashDash l) = [] → processLine l = none) := by
  have hie : (strip l).isEmpty = false := by
    cases hq : strip l with
    | nil => exact absurd hq h2
    | cons c cs => rfl
  have hg1 : (startsDashDash (strip l) || (strip l).isEmpty) = false := by
    rw [h1, hie]
    rfl
  have hg2 : ignore_keywords.any (fun kw => hasSub kw (strip l)) = false := by
    apply bool_eq_false
    intro hq
    obtain ⟨kw, hm, hs⟩ := List.any_eq_true.mp hq
    exact h3 kw hm ((hasSub_iff _ _).mp hs)
  have hg3 : hasSub dashDash l = true := (hasSub_iff _ _).mpr h4
  have hst : strip (rstrip (beforeDashDash l)) = strip (beforeDashDash l) :=
    strip_rstrip _
  constructor
  · intro hne
    have h4e : (strip (rstrip (beforeDashDash l))).isEmpty = false := by
      rw [hst]
      cases hq : strip (beforeDashDash l) with
      | nil => exact absurd hq hne
      | cons c cs => rfl
    simp [processLine, hg1, hg2, hg3, h4e, rstrip_idem]
  · intro hnil
    have h4e : (strip (rstrip (beforeDashDash l))).isEmpty = true := by
      rw [hst, hnil]
      rfl
    simp [processLine, hg1, hg2, hg3, h4e]

/-- Witness for C2 at the spec scenario `INSERT INTO t VALUES (1); -- seed row`. -/
theorem spec_C2_w :
    processLine "INSERT INTO t VALUES (1); -- seed row".toList
      = some (rstrip (beforeDashDash "INSERT INTO t VALUES (1); -- seed row".toList)) :=
  (spec_C2 _ (by decide) (by decide) (by decide) (by decide)).1 (by decide)

/-- C3: a whitespace-only line, or a line whose trimmed form starts with `--`,
never appears in the output of `clean_sql`. -/
theorem spec_C3 (lines : List (List Char)) (l : List Char)
    (h : strip l = [] ∨ startsDashDash (strip l) = true) :
    l ∉ cleanLines lines := by
  intro hmem
  obtain ⟨l', -, hpl⟩ := List.mem_filterMap.mp hmem
  obtain ⟨-, -, -, -, hne, hdd⟩ := processLine_some hpl
  rcases h with h | h
  · exact hne h
  · exact hdd (sub_trans (sub_of_pre ((startsDD_iff _).mp h)) (strip_inf l))

/-- Witness for C3 at the spec scenario `  -- this is a comment`. -/
theorem spec_C3_w :
    "  -- this is a comment".toList
      ∉ cleanLines ["  -- this is a comment".toList] :=
  spec_C3 _ _ (Or.inr (by decide))

/-- C4: the output is the surviving lines joined with exactly one newline
between consecutive lines (no output line contains a newline, and the newline
count is one less than the number of surviving lines), there is no trailing
newline after the final line, and an empty input file yields the empty
string. -/
theorem spec_C4 (content : List Char) :
    cleanFile content = joinLines (cleanLines (readLines content)) ∧
    (∀ o ∈ cleanLines (readLines content), '\n' ∉ o) ∧
    (cleanFile content).count '\n' = (cleanLines (readLines content)).length - 1 ∧
    (cleanFile content).getLast? ≠ some '\n' ∧
    cleanFile [] = [] := by
  have hnoNl : ∀ o ∈ cleanLines (readLines content), '\n' ∉ o := by
    intro o ho
    obtain ⟨l, hl, hpl⟩ := List.mem_filterMap.mp ho
    exact out_noNl hpl (readLines_shape content l hl)
  refine ⟨rfl, hnoNl, joinLines_count hnoNl, ?_, rfl⟩
  intro hlast
  have hne : ∀ o ∈ cleanLines (readLines content), o ≠ [] := by
    intro o ho hnil
    obtain ⟨l, hl, hpl⟩ := List.mem_filterMap.mp ho
    obtain ⟨-, -, -, -, hso, -⟩ := processLine_some hpl
    rw [hnil] at hso
    exact hso rfl
  have houtsne : cleanLines (readLines content) ≠ [] := by
    intro hnil
    have hlast' : (joinLines (cleanLines (readLines content))).getLast?
        = some '\n' := hlast
    rw [hnil] at hlast'
    exact Option.noConfusion hlast'
  obtain ⟨o, ho, he⟩ := joinLines_getLast hne houtsne
  have hlast' : (joinLines (cleanLines (readLines content))).getLast?
      = some '\n' := hlast
  rw [he] at hlast'
  obtain ⟨l, hl, hpl⟩ := List.mem_filterMap.mp ho
  obtain ⟨-, -, -, hr, -, -⟩ := processLine_some hpl
  have hsp : isSpace '\n' = false := rstrip_last (by rw [hr]; exact hlast')
  exact absurd hsp (by decide)

/-- Witness for C4, evaluated at a line with trailing whitespace. -/
theorem spec_C4_w : (cleanFile "SELECT 1;  \n".toList).getLast? ≠ some '\n' :=
  (spec_C4 "SELECT 1;  \n".toList).2.2.2.1

/-- C5: the output is an order-preserving (stable) filter-and-transform of
the input lines: cleaning distributes over concatenation, and the surviving
transformed lines form a sublist (in order, with multiplicity) of the
per-line images of the input. -/
theorem spec_C5 (xs ys ls : List (List Char)) :
    cleanLines (xs ++ ys) = cleanLines xs ++ cleanLines ys ∧
    List.Sublist ((cleanLines ls).map some) (ls.map processLine) := by
  constructor
  · simp [cleanLines]
  · unfold cleanLines
    induction ls with
    | nil => simp
    | cons a t ih =>
      cases hpa : processLine a with
      | none =>
        rw [List.filterMap_cons, hpa, List.map_cons, hpa]
        exact ih.cons _
      | some b =>
        rw [List.filterMap_cons, hpa, List.map_cons, List.map_cons, hpa]
        exact ih.cons₂ _

/-- Witness for C5 at concrete line lists. -/
theorem spec_C5_w :
    cleanLines (["a;".toList] ++ ["-- b".toList])
      = cleanLines ["a;".toList] ++ cleanLines ["-- b".toList] :=
  (spec_C5 ["a;".toList] ["-- b".toList] []).1

/-- C6: the filtering transform is idempotent on file contents: cleaning the
cleaned output (splitting it back into lines and filtering with the same
ignore patterns) returns it byte-identically. -/
theorem spec_C6 (content : List Char) :
    cleanFile (cleanFile content) = cleanFile content := by
  have hInv : ∀ o ∈ cleanLines (readLines content),
      processLine o = some o ∧ processLine (o ++ ['\n']) = some o := by
    intro o ho
    obtain ⟨l, hl, hpl⟩ := List.mem_filterMap.mp ho
    obtain ⟨-, -, -, hr, hso, hdd⟩ := processLine_some hpl
    exact processLine_pass hr hso hdd (processLine_kwFree hpl)
  have hshape : ∀ o ∈ cleanLines (readLines content), o ≠ [] ∧ '\n' ∉ o := by
    intro o ho
    obtain ⟨l, hl, hpl⟩ := List.mem_filterMap.mp ho
    obtain ⟨-, -, -, -, hso, -⟩ := processLine_some hpl
    refine ⟨?_, out_noNl hpl (readLines_shape content l hl)⟩
    intro hnil
    rw [hnil] at hso
    exact hso rfl
  show joinLines (cleanLines (readLines (joinLines (cleanLines (readLines content)))))
      = joinLines (cleanLines (readLines content))
  rw [readLines_join _ hshape, cleanLines_withNl _ hInv]

/-- Witness for C6 at a concrete file content. -/
theorem spec_C6_w :
    cleanFile (cleanFile "a; -- b\n  \nGRANT ALL ON x;\nc;\n".toList)
      = cleanFile "a; -- b\n  \nGRANT ALL ON x;\nc;\n".toList :=
  spec_C6 "a; -- b\n  \nGRANT ALL ON x;\nc;\n".toList

/-- C7: the ignore-pattern rule fires on the trimmed line before inline
comments are stripped: a line whose trimmed form contains a pattern only
inside its comment portion is discarded whole, not kept with the comment
removed. -/
theorem spec_C7 (l kw : List Char) (hkw : kw ∈ ignore_keywords)
    (h1 : kw <:+: strip l) (h2 : ¬ kw <:+: beforeDashDash l) :
    processLine l = none := by
  cases hg1 : (startsDashDash (strip l) || (strip l).isEmpty) with
  | true => simp [processLine, hg1]
  | false =>
    have hg2 : ignore_keywords.any (fun kw => hasSub kw (strip l)) = true :=
      List.any_eq_true.mpr ⟨kw, hkw, (hasSub_iff _ _).mpr h1⟩
    simp [processLine, hg1, hg2]

/-- Witness for C7 at a line whose only pattern occurrence is inside the
inline comment. -/
theorem spec_C7_w : processLine "SELECT 1; -- GRANT ALL junk".toList = none :=
  spec_C7 _ "GRANT ALL".toList (by decide) (by decide) (by decide)

/-- C8: `clean_sql` fails exactly when the input path cannot be read, and
performs no content validation: for any file content whatsoever it succeeds,
writing the cleaned content to the output path and leaving all other paths
untouched. -/
theorem spec_C8 (fs : List Char → Option (List Char)) (inP outP : List Char) :
    ((clean_sql fs inP outP).isSome ↔ (fs inP).isSome) ∧
    (∀ content, fs inP = some content →
      ∃ fs2, clean_sql fs inP outP = some fs2 ∧
        fs2 outP = some (cleanFile content) ∧
        ∀ p, p ≠ outP → fs2 p = fs p) := by
  constructor
  · cases hq : fs inP with
    | none => simp [clean_sql, hq]
    | some content => simp [clean_sql, hq]
  · intro content hc
    refine ⟨fun p => if p = outP then some (cleanFile content) else fs p,
      ?_, ?_, ?_⟩
    · simp [clean_sql, hc]
    · simp
    · intro p hp
      simp [hp]

/-- Witness for C8 on a one-file file system whose content is not valid SQL. -/
theorem spec_C8_w :
    ∃ fs2, clean_sql
        (fun p => if p = "in.sql".toList then some "not sql at all\n".toList else none)
        "in.sql".toList "out.sql".toList = some fs2 ∧
      fs2 "out.sql".toList = some (cleanFile "not sql at all\n".toList) ∧
      ∀ p, p ≠ "out.sql".toList →
        fs2 p = (fun p => if p = "in.sql".toList
          then some "not sql at all\n".toList else none) p :=
  (spec_C8 _ _ _).2 _ (by decide)

/-- C9: every output line is non-empty, not whitespace-only, has no trailing
whitespace, contains no `--` and no ignore pattern, and is a prefix of some
input line (so its leading whitespace is preserved). -/
theorem spec_C9 (lines : List (List Char)) (o : List Char)
    (h : o ∈ cleanLines lines) :
    o ≠ [] ∧ strip o ≠ [] ∧ rstrip o = o ∧ ¬ dashDash <:+: o ∧
    (∀ kw ∈ ignore_keywords, ¬ kw <:+: o) ∧ ∃ l ∈ lines, o <+: l := by
  obtain ⟨l, hl, hpl⟩ := List.mem_filterMap.mp h
  obtain ⟨-, -, hpre, hr, hso, hdd⟩ := processLine_some hpl
  refine ⟨?_, hso, hr, hdd, processLine_kwFree hpl, ⟨l, hl, hpre⟩⟩
  intro hnil
  rw [hnil] at hso
  exact hso rfl

/-- Witness for C9 at a concrete cleaned line. -/
theorem spec_C9_w :
    "  CREATE TABLE t (id int);".toList ≠ ([] : List Char) ∧
    strip "  CREATE TABLE t (id int);".toList ≠ [] ∧
    rstrip "  CREATE TABLE t (id int);".toList = "  CREATE TABLE t (id int);".toList ∧
    ¬ dashDash <:+: "  CREATE TABLE t (id int);".toList ∧
    (∀ kw ∈ ignore_keywords, ¬ kw <:+: "  CREATE TABLE t (id int);".toList) ∧
    ∃ l ∈ ["  CREATE TABLE t (id int);  ".toList],
      "  CREATE TABLE t (id int);".toList <+: l :=
  spec_C9 ["  CREATE TABLE t (id int);  ".toList] _ (by decide)

/-- C10: the whitespace-only-truncation discard is unreachable: a line that
passes the blank/comment rule and contains `--` always has non-whitespace
content before the first `--`, so the inner emptiness check never fires. -/
theorem spec_C10 (l : List Char) (h1 : strip l ≠ [])
    (h2 : startsDashDash (strip l) = false) (h3 : dashDash <:+: l) :
    (∃ c ∈ beforeDashDash l, isSpace c = false) ∧
    strip (rstrip (beforeDashDash l)) ≠ [] := by
  have key : strip (beforeDashDash l) ≠ [] := by
    intro hnil
    have hall : ∀ c ∈ beforeDashDash l, isSpace c = true :=
      (strip_eq_nil_iff _).mp hnil
    obtain ⟨t, ht⟩ := bdd_spec l h3
    have hr2 : rstrip (dashDash ++ t) ≠ [] := by
      intro hq
      have h5 := (rstrip_eq_nil_iff _).mp hq '-'
        (List.mem_append_left _ (by simp [dashDash]))
      exact absurd h5 (by decide)
    have hsl : strip l = lstrip (rstrip (dashDash ++ t)) := by
      rw [ht, List.append_assoc]
      unfold strip
      rw [rstrip_app_full _ _ hr2, lstrip_allSpace _ hall]
    have hdd2 : ∃ t2, rstrip (dashDash ++ t) = '-' :: '-' :: t2 := by
      by_cases hrt : rstrip t = []
      · have hts : ∀ c ∈ t, isSpace c = true := (rstrip_eq_nil_iff _).mp hrt
        refine ⟨[], ?_⟩
        rw [rstrip_app_space dashDash hts]
        decide
      · refine ⟨rstrip t, ?_⟩
        rw [rstrip_app_full dashDash t hrt]
        rfl
    obtain ⟨t2, ht2⟩ := hdd2
    have hsd : startsDashDash (strip l) = true := by
      rw [hsl, ht2, lstrip_cons_nospace _ (by decide)]
      rfl
    rw [h2] at hsd
    exact Bool.noConfusion hsd
  constructor
  · by_contra hq
    push_neg at hq
    apply key
    apply (strip_eq_nil_iff _).mpr
    intro c hc
    cases hcs : isSpace c with
    | true => rfl
    | false => exact absurd hcs (hq c hc)
  · rw [strip_rstrip]
    exact key

/-- Witness for C10 at a concrete kept line with an inline comment. -/
theorem spec_C10_w :
    (∃ c ∈ beforeDashDash "foo; -- tail".toList, isSpace c = false) ∧
    strip (rstrip (beforeDashDash "foo; -- tail".toList)) ≠ [] :=
  spec_C10 "foo; -- tail".toList (by decide) (by decide) (by decide)

end CodeCleaner
